import Mathlib

/-!
Verification development for the FacePic ingestion / face-clustering system.

Shallow embedding of the parts of the source relevant to the checked
properties:

* the ingestion scheduler's directory-walk filtering and result handling
  (`BatchProcessor.run` in `backend/app/services/batch_processor.py`),
* the worker fast-path matcher (`find_matching_person_optimized`),
* the representative-face score update inside `process_image_task`,
* the per-image task's success and failure paths,
* the embedding codec (`backend/app/services/encoding_utils.py`),
* the offline similarity matcher (`_find_matching_person` in
  `processor/app/services/clustering_service.py`),
* the person-merge operations (`processor/fixup.py` and
  `processor/app/services/clustering_service.py`).

Scores, similarities and embedding coordinates are modelled as rationals;
byte strings are lists of `Fin 256`; fallible operations return `Except`
or `Option`; the catalogue store is explicit state threaded through the
functions.
-/

/-! ## Ingestion scheduler: directory walk (`BatchProcessor.run`, walk loop)

The walk visits each file under the import root.  A file is described by the
relative path of its directory (`os.path.relpath(root, import_dir)`, which is
`"."` at the root), its filename, and the MIME type guessed from its name
(`mimetypes.guess_type`, `none` when no type can be guessed).
-/

structure FileEntry where
  dirRel : String
  filename : String
  mime : Option String
deriving DecidableEq, Repr

/-- `log_key = os.path.join(rel_path, filename)`, or just `filename` when the
directory is the import root itself. -/
def log_key (f : FileEntry) : String :=
  if f.dirRel = "." then f.filename else f.dirRel ++ "/" ++ f.filename

/-- Character-list prefix test, the meaning of Python's `str.startswith`. -/
def charsStartWith : List Char → List Char → Bool
  | [], _ => true
  | _ :: _, [] => false
  | p :: ps, c :: cs => if p = c then charsStartWith ps cs else false

/-- `s.startswith(pre)` over the string's character data. -/
def strStartsWith (s pre : String) : Bool :=
  charsStartWith pre.data s.data

/-- One file's walk decision, mirroring the body of the file loop in
`BatchProcessor.run`: skip if the log key is in the loaded progress set,
then skip dotfiles, then skip files whose guessed MIME type is missing or
does not start with `image/`. -/
def is_candidate (processedLog : List String) (f : FileEntry) : Bool :=
  if log_key f ∈ processedLog then false
  else if strStartsWith f.filename "." then false
  else
    match f.mime with
    | none => false
    | some m => strStartsWith m "image/"

/-- The candidate work list produced by the walk. -/
def scan_candidates (processedLog : List String) (files : List FileEntry) :
    List FileEntry :=
  files.filter (is_candidate processedLog)

/-! ## Ingestion scheduler: result handling (`BatchProcessor.run`, result loop)

A worker result is `none` for a failed task (the worker's `except` branch
returns `None`), or the tuple `(relative_path, thumbnail_filename,
faces_info)` on success.
-/

structure FaceInfo where
  face_id : String
  person_id : String
  thumbnail_path : Option String
deriving DecidableEq, Repr

structure TaskResult where
  rel_path : String
  thumb_filename : String
  faces_info : List FaceInfo
deriving DecidableEq, Repr

structure LogData where
  thumbnail : String
  faces : List FaceInfo
deriving DecidableEq, Repr

/-- The log record built by the scheduler from a successful result
(`log_entry = {processed_at, thumbnail, faces}`; the timestamp is elided). -/
def mkLogEntry (r : TaskResult) : LogData :=
  { thumbnail := r.thumb_filename, faces := r.faces_info }

/-- `BatchProcessor.append_to_log`: one record appended at the end of the
append-only log. -/
def append_to_log (log : List (String × LogData)) (key : String)
    (data : LogData) : List (String × LogData) :=
  log ++ [(key, data)]

structure SchedState where
  log : List (String × LogData)
  counter : Nat
deriving DecidableEq, Repr

/-- One iteration of the scheduler's result loop: on a truthy (non-`None`)
result append one progress record and bump the session counter; on `None`
only bump the counter. -/
def handle_result (st : SchedState) (key : String) (res : Option TaskResult) :
    SchedState :=
  match res with
  | some r =>
      { log := append_to_log st.log key (mkLogEntry r),
        counter := st.counter + 1 }
  | none => { log := st.log, counter := st.counter + 1 }

/-! ## Embedding codec (`encoding_utils.py`)

A stored embedding element is its little-endian byte pattern: a float32 is
4 bytes, a float64 is 8 bytes.  `Encoding` keeps each element as the natural
number encoded by those bytes, together with the element type, exactly the
information numpy's dtype-tagged arrays carry.
-/

abbrev Byte := Fin 256

/-- Little-endian byte serialisation of one element (`ndarray.tobytes` on a
little-endian host), `w` bytes wide. -/
def bytesOfNat : Nat → Nat → List Byte
  | 0, _ => []
  | w + 1, n => (⟨n % 256, by omega⟩ : Byte) :: bytesOfNat w (n / 256)

/-- Little-endian byte deserialisation of one element. -/
def natOfBytes : List Byte → Nat
  | [] => 0
  | b :: bs => b.val + 256 * natOfBytes bs

/-- Split a byte string into consecutive 4-byte little-endian words
(`np.frombuffer(data, dtype=np.float32)`). -/
def chunk4 : List Byte → List Nat
  | b0 :: b1 :: b2 :: b3 :: rest => natOfBytes [b0, b1, b2, b3] :: chunk4 rest
  | _ => []

/-- Split a byte string into consecutive 8-byte little-endian words
(`np.frombuffer(data, dtype=np.float64)`). -/
def chunk8 : List Byte → List Nat
  | b0 :: b1 :: b2 :: b3 :: b4 :: b5 :: b6 :: b7 :: rest =>
      natOfBytes [b0, b1, b2, b3, b4, b5, b6, b7] :: chunk8 rest
  | _ => []

/-- A decoded embedding vector with its element type. -/
inductive Encoding where
  | f32 (elems : List Nat)
  | f64 (elems : List Nat)
deriving DecidableEq, Repr

/-- `encoding_to_bytes`: `encoding.tobytes()`, little-endian elements
concatenated. -/
def encoding_to_bytes : Encoding → List Byte
  | .f32 es => (es.map (bytesOfNat 4)).flatten
  | .f64 es => (es.map (bytesOfNat 8)).flatten

/-- `bytes_to_encoding`: dtype inferred from the byte length; lengths 2048
and 512 decode as float32, 1024 as float64, and any other length falls into
the final `else` branch, which retries `np.frombuffer` with `float64` —
raising only when the length is not a multiple of the 8-byte item size. -/
def bytes_to_encoding (data : List Byte) : Except String Encoding :=
  if data.length = 2048 then .ok (.f32 (chunk4 data))
  else if data.length = 1024 then .ok (.f64 (chunk8 data))
  else if data.length = 512 then .ok (.f32 (chunk4 data))
  else if data.length % 8 = 0 then .ok (.f64 (chunk8 data))
  else .error "buffer size must be a multiple of element size"

/-- The embedding shapes actually produced by the system's detectors:
128-d or 512-d float32, or 128-d float64, with each element a valid bit
pattern of its width. -/
def supportedEncoding : Encoding → Prop
  | .f32 es => (es.length = 128 ∨ es.length = 512) ∧ ∀ e ∈ es, e < 2 ^ 32
  | .f64 es => es.length = 128 ∧ ∀ e ∈ es, e < 2 ^ 64

instance : DecidablePred supportedEncoding := by
  intro v
  cases v <;> simp only [supportedEncoding] <;> infer_instance

/-! ### Codec lemmas -/

theorem bytesOfNat_length (w n : Nat) : (bytesOfNat w n).length = w := by
  induction w generalizing n with
  | zero => rfl
  | succ w ih => simp [bytesOfNat, ih]

theorem natOfBytes_bytesOfNat (w n : Nat) (h : n < 256 ^ w) :
    natOfBytes (bytesOfNat w n) = n := by
  induction w generalizing n with
  | zero =>
      simp only [Nat.pow_zero, Nat.lt_one_iff] at h
      simp [bytesOfNat, natOfBytes, h]
  | succ w ih =>
      have hdiv : n / 256 < 256 ^ w := by
        rw [Nat.div_lt_iff_lt_mul (by norm_num)]
        calc n < 256 ^ (w + 1) := h
        _ = 256 ^ w * 256 := by ring
      simp only [bytesOfNat, natOfBytes, ih (n / 256) hdiv]
      omega

theorem chunk4_head (e : Nat) (he : e < 2 ^ 32) (rest : List Byte) :
    chunk4 (bytesOfNat 4 e ++ rest) = e :: chunk4 rest := by
  have h4 : natOfBytes (bytesOfNat 4 e) = e :=
    natOfBytes_bytesOfNat 4 e (by norm_num at he ⊢; omega)
  simp only [bytesOfNat] at h4 ⊢
  simpa [chunk4, natOfBytes] using h4

theorem chunk8_head (e : Nat) (he : e < 2 ^ 64) (rest : List Byte) :
    chunk8 (bytesOfNat 8 e ++ rest) = e :: chunk8 rest := by
  have h8 : natOfBytes (bytesOfNat 8 e) = e :=
    natOfBytes_bytesOfNat 8 e (by norm_num at he ⊢; omega)
  simp only [bytesOfNat] at h8 ⊢
  simpa [chunk8, natOfBytes] using h8

theorem chunk4_join (es : List Nat) (h : ∀ e ∈ es, e < 2 ^ 32) :
    chunk4 (es.map (bytesOfNat 4)).flatten = es := by
  induction es with
  | nil => rfl
  | cons e es ih =>
      simp only [List.map_cons, List.flatten_cons]
      rw [chunk4_head e (h e (by simp)), ih (fun x hx => h x (by simp [hx]))]

theorem chunk8_join (es : List Nat) (h : ∀ e ∈ es, e < 2 ^ 64) :
    chunk8 (es.map (bytesOfNat 8)).flatten = es := by
  induction es with
  | nil => rfl
  | cons e es ih =>
      simp only [List.map_cons, List.flatten_cons]
      rw [chunk8_head e (h e (by simp)), ih (fun x hx => h x (by simp [hx]))]

theorem encoding_to_bytes_length_f32 (es : List Nat) :
    (encoding_to_bytes (.f32 es)).length = 4 * es.length := by
  simp only [encoding_to_bytes, List.length_flatten, List.map_map]
  induction es with
  | nil => rfl
  | cons e es ih =>
      simp_all [bytesOfNat_length, Nat.mul_add]
      omega

theorem encoding_to_bytes_length_f64 (es : List Nat) :
    (encoding_to_bytes (.f64 es)).length = 8 * es.length := by
  simp only [encoding_to_bytes, List.length_flatten, List.map_map]
  induction es with
  | nil => rfl
  | cons e es ih =>
      simp_all [bytesOfNat_length, Nat.mul_add]
      omega

/-! ## Claim theorems: scheduler walk, result handling, codec -/

/-- C1: Resumability of ingestion.  Every file under the import root whose
progress-log key is in the loaded progress set is excluded from the walk's
candidate list (never enqueued); every other non-dotfile whose guessed MIME
type starts with `image/` is in the candidate list, so a restart re-attempts
exactly the unlogged image files. -/
theorem run_walk_resumability (log : List String) (files : List FileEntry)
    (f : FileEntry) (hf : f ∈ files) :
    (log_key f ∈ log → f ∉ scan_candidates log files) ∧
    (log_key f ∉ log → strStartsWith f.filename "." = false →
      (∃ m, f.mime = some m ∧ strStartsWith m "image/" = true) →
      f ∈ scan_candidates log files) := by
  constructor
  · intro hmem hcand
    have hp := (List.mem_filter.mp hcand).2
    simp [is_candidate, hmem] at hp
  · rintro hnot hdot ⟨m, hm, him⟩
    refine List.mem_filter.mpr ⟨hf, ?_⟩
    simp [is_candidate, hnot, hdot, hm, him]

theorem run_walk_resumability_witness :
    (⟨".", "a.jpg", some "image/jpeg"⟩ : FileEntry) ∉
      scan_candidates ["a.jpg"]
        [⟨".", "a.jpg", some "image/jpeg"⟩, ⟨".", "b.jpg", some "image/jpeg"⟩] ∧
    (⟨".", "b.jpg", some "image/jpeg"⟩ : FileEntry) ∈
      scan_candidates ["a.jpg"]
        [⟨".", "a.jpg", some "image/jpeg"⟩, ⟨".", "b.jpg", some "image/jpeg"⟩] :=
  ⟨(run_walk_resumability ["a.jpg"] _ _ (by decide)).1 (by decide),
   (run_walk_resumability ["a.jpg"] _ _ (by decide)).2 (by decide) (by decide)
     ⟨"image/jpeg", rfl, by decide⟩⟩

/-- C2: A progress-log record is appended iff the per-image task succeeded.
For every result the scheduler receives: a `some` result appends exactly one
record `(key, data)` at the end of the log and increments the visible
counter; a `none` result leaves the log untouched (the file stays unlogged
and is retried on the next run). -/
theorem run_result_handling (st : SchedState) (key : String)
    (res : Option TaskResult) :
    (∀ r, res = some r →
      handle_result st key res =
        ⟨append_to_log st.log key (mkLogEntry r), st.counter + 1⟩ ∧
      (handle_result st key res).log.length = st.log.length + 1) ∧
    (res = none → (handle_result st key res).log = st.log) := by
  constructor
  · rintro r rfl
    exact ⟨rfl, by simp [handle_result, append_to_log]⟩
  · rintro rfl
    rfl

theorem run_result_handling_witness :
    handle_result ⟨[], 0⟩ "k" (some ⟨"k", "t.jpg", []⟩) =
      ⟨[("k", ⟨"t.jpg", []⟩)], 1⟩ ∧
    (handle_result ⟨[], 0⟩ "k" none).log = [] := by
  refine ⟨?_, (run_result_handling ⟨[], 0⟩ "k" none).2 rfl⟩
  have h :=
    ((run_result_handling ⟨[], 0⟩ "k" (some ⟨"k", "t.jpg", []⟩)).1
      ⟨"k", "t.jpg", []⟩ rfl).1
  simpa [append_to_log, mkLogEntry] using h

/-- C7 counterexample: a byte string of length 8 — not one of
{512, 1024, 2048} — decodes with no error: the final branch of
`bytes_to_encoding` silently falls back to a float64 read. -/
theorem bytes_to_encoding_fallback_counterexample :
    bytes_to_encoding (List.replicate 8 (0 : Byte)) = .ok (.f64 [0]) ∧
    (List.replicate 8 (0 : Byte)).length ≠ 512 ∧
    (List.replicate 8 (0 : Byte)).length ≠ 1024 ∧
    (List.replicate 8 (0 : Byte)).length ≠ 2048 :=
  ⟨rfl, by decide, by decide, by decide⟩

/-- C7 (amended): for a byte string whose length is not one of
{512, 1024, 2048}, decoding falls back to interpreting the bytes as float64
and silently returns a vector whenever the length is a multiple of 8; an
error is surfaced exactly when the length is not a multiple of 8. -/
theorem bytes_to_encoding_unsupported_length (data : List Byte)
    (h512 : data.length ≠ 512) (h1024 : data.length ≠ 1024)
    (h2048 : data.length ≠ 2048) :
    (data.length % 8 = 0 →
      bytes_to_encoding data = .ok (.f64 (chunk8 data))) ∧
    (data.length % 8 ≠ 0 →
      bytes_to_encoding data =
        .error "buffer size must be a multiple of element size") := by
  unfold bytes_to_encoding
  rw [if_neg h2048, if_neg h1024, if_neg h512]
  constructor <;> intro h <;> simp [h]

theorem bytes_to_encoding_unsupported_length_witness :
    bytes_to_encoding (List.replicate 16 (0 : Byte)) = .ok (.f64 [0, 0]) ∧
    bytes_to_encoding (List.replicate 3 (0 : Byte)) =
      .error "buffer size must be a multiple of element size" := by
  constructor
  · have h :=
      (bytes_to_encoding_unsupported_length (List.replicate 16 0)
        (by decide) (by decide) (by decide)).1 (by decide)
    have hc : chunk8 (List.replicate 16 (0 : Byte)) = [0, 0] := by decide
    rw [h, hc]
  · exact
      (bytes_to_encoding_unsupported_length (List.replicate 3 0)
        (by decide) (by decide) (by decide)).2 (by decide)

/-- C8: Embedding round-trip.  For every raw embedding of a supported shape
(128-d float32, 128-d float64, 512-d float32), decoding the encoded byte
form returns the original vector bitwise, with the element type correctly
re-inferred from the byte length (512 bytes → float32, 1024 → float64,
2048 → float32). -/
theorem encoding_roundtrip (v : Encoding) (h : supportedEncoding v) :
    bytes_to_encoding (encoding_to_bytes v) = .ok v := by
  cases v with
  | f32 es =>
      obtain ⟨hlen, hbound⟩ := h
      have hchunk : chunk4 (encoding_to_bytes (Encoding.f32 es)) = es := by
        simpa [encoding_to_bytes] using chunk4_join es hbound
      rcases hlen with hlen | hlen
      · have hl : (encoding_to_bytes (Encoding.f32 es)).length = 512 := by
          rw [encoding_to_bytes_length_f32, hlen]
        unfold bytes_to_encoding
        rw [hl]
        norm_num [hchunk]
      · have hl : (encoding_to_bytes (Encoding.f32 es)).length = 2048 := by
          rw [encoding_to_bytes_length_f32, hlen]
        unfold bytes_to_encoding
        rw [hl]
        norm_num [hchunk]
  | f64 es =>
      obtain ⟨hlen, hbound⟩ := h
      have hchunk : chunk8 (encoding_to_bytes (Encoding.f64 es)) = es := by
        simpa [encoding_to_bytes] using chunk8_join es hbound
      have hl : (encoding_to_bytes (Encoding.f64 es)).length = 1024 := by
        rw [encoding_to_bytes_length_f64, hlen]
      unfold bytes_to_encoding
      rw [hl]
      norm_num [hchunk]

set_option maxRecDepth 4000 in
theorem encoding_roundtrip_witness :
    bytes_to_encoding (encoding_to_bytes (.f32 (List.replicate 128 7))) =
      .ok (.f32 (List.replicate 128 7)) :=
  encoding_roundtrip _ (by decide)

/-! ## Worker fast path (`find_matching_person_optimized`)

Embeddings are rational vectors.  The worker keeps a static snapshot of
pre-existing exemplars (`_CACHED_INITIAL_MATRIX` with its parallel id list)
and a shared list of clusters created during the run (`WORKER_NEW_FACES`);
each block contributes its `np.argmax` of dot products, and the running
best similarity starts at `-1.0`.
-/

abbrev Emb := List ℚ

/-- Elementwise dot product (`np.dot`). -/
def dotp : Emb → Emb → ℚ
  | a :: as, b :: bs => a * b + dotp as bs
  | _, _ => 0

@[simp] theorem dotp_nil_left (l : Emb) : dotp [] l = 0 := by
  cases l <;> rfl

@[simp] theorem dotp_cons (a b : ℚ) (as bs : Emb) :
    dotp (a :: as) (b :: bs) = a * b + dotp as bs := rfl

theorem dotp_replicate_zero (n : Nat) (l : Emb) :
    dotp (List.replicate n (0 : ℚ)) l = 0 := by
  induction n generalizing l with
  | zero => simp [List.replicate]
  | succ n ih =>
      cases l with
      | nil => rfl
      | cons b bs => simp [List.replicate_succ, ih]

/-- First-occurrence argmax of the similarities of one candidate block
(`idx = np.argmax(similarities)`), with the attained similarity. -/
def argmaxSim (q : Emb) : List (String × Emb) → Option (String × ℚ)
  | [] => none
  | (p, e) :: rest =>
      match argmaxSim q rest with
      | none => some (p, dotp e q)
      | some (p2, s2) =>
          if s2 > dotp e q then some (p2, s2) else some (p, dotp e q)

/-- Running best after the static initial block (`best_similarity` starts at
`-1.0`; the block is consulted only when the cached matrix exists, i.e. the
snapshot is nonempty). -/
def bestAfterInitial (q : Emb) (initial : List (String × Emb)) :
    ℚ × Option String :=
  match argmaxSim q initial with
  | none => (-1, none)
  | some (p, s) => if s > -1 then (s, some p) else (-1, none)

/-- Running best after also consulting the shared new-cluster block. -/
def bestAfterNew (q : Emb) (initial newFaces : List (String × Emb)) :
    ℚ × Option String :=
  match argmaxSim q newFaces with
  | none => bestAfterInitial q initial
  | some (p, s) =>
      if s > (bestAfterInitial q initial).1 then (s, some p)
      else bestAfterInitial q initial

/-- `find_matching_person_optimized(face_encoding, threshold=0.45)`: return
the best-similarity person id when `best_similarity > threshold`, else
`None`. -/
def find_matching_person_optimized (initial newFaces : List (String × Emb))
    (q : Emb) (threshold : ℚ := 9/20) : Option String :=
  if (bestAfterNew q initial newFaces).1 > threshold
  then (bestAfterNew q initial newFaces).2 else none

/-- Best similarity of a block, with the code's `-1.0` starting value. -/
def maxDots (q : Emb) (cands : List (String × Emb)) : ℚ :=
  (cands.map (fun pe => dotp pe.2 q)).foldr max (-1)

/-! ### Fast-path lemmas -/


theorem argmaxSim_none_iff (q : Emb) (l : List (String × Emb)) :
    argmaxSim q l = none ↔ l = [] := by
  cases l with
  | nil => simp [argmaxSim]
  | cons pe rest =>
      obtain ⟨p, e⟩ := pe
      rcases hr : argmaxSim q rest with _ | ⟨p2, s2⟩
      · simp [argmaxSim, hr]
      · by_cases hcmp : s2 > dotp e q <;> simp [argmaxSim, hr, hcmp]

theorem argmaxSim_ub (q : Emb) (l : List (String × Emb)) (p : String) (s : ℚ)
    (h : argmaxSim q l = some (p, s)) :
    ∀ pe ∈ l, dotp pe.2 q ≤ s := by
  induction l generalizing p s with
  | nil => simp [argmaxSim] at h
  | cons pe0 rest ih =>
      obtain ⟨p0, e0⟩ := pe0
      rcases hr : argmaxSim q rest with _ | ⟨p2, s2⟩
      · simp only [argmaxSim, hr, Option.some.injEq, Prod.mk.injEq] at h
        obtain ⟨rfl, rfl⟩ := h
        intro pe hpe
        rcases List.mem_cons.mp hpe with rfl | hmem
        · exact le_refl _
        · rw [(argmaxSim_none_iff q rest).mp hr] at hmem
          simp at hmem
      · have hrest := ih p2 s2 hr
        by_cases hcmp : s2 > dotp e0 q
        · simp only [argmaxSim, hr, hcmp, if_true, Option.some.injEq,
            Prod.mk.injEq] at h
          obtain ⟨rfl, rfl⟩ := h
          intro pe hpe
          rcases List.mem_cons.mp hpe with rfl | hmem
          · exact le_of_lt hcmp
          · exact hrest pe hmem
        · simp only [argmaxSim, hr, hcmp, if_false, Option.some.injEq,
            Prod.mk.injEq] at h
          obtain ⟨rfl, rfl⟩ := h
          intro pe hpe
          rcases List.mem_cons.mp hpe with rfl | hmem
          · exact le_refl _
          · exact le_trans (hrest pe hmem) (not_lt.mp hcmp)

theorem argmaxSim_attained (q : Emb) (l : List (String × Emb)) (p : String)
    (s : ℚ) (h : argmaxSim q l = some (p, s)) :
    ∃ pe ∈ l, pe.1 = p ∧ dotp pe.2 q = s := by
  induction l generalizing p s with
  | nil => simp [argmaxSim] at h
  | cons pe0 rest ih =>
      obtain ⟨p0, e0⟩ := pe0
      rcases hr : argmaxSim q rest with _ | ⟨p2, s2⟩
      · simp only [argmaxSim, hr, Option.some.injEq, Prod.mk.injEq] at h
        obtain ⟨rfl, rfl⟩ := h
        exact ⟨(p0, e0), by simp⟩
      · by_cases hcmp : s2 > dotp e0 q
        · simp only [argmaxSim, hr, hcmp, if_true, Option.some.injEq,
            Prod.mk.injEq] at h
          obtain ⟨rfl, rfl⟩ := h
          obtain ⟨pe, hmem, hfst, hdot⟩ := ih p2 s2 hr
          exact ⟨pe, List.mem_cons_of_mem _ hmem, hfst, hdot⟩
        · simp only [argmaxSim, hr, hcmp, if_false, Option.some.injEq,
            Prod.mk.injEq] at h
          obtain ⟨rfl, rfl⟩ := h
          exact ⟨(p0, e0), by simp⟩

theorem maxDots_gt_iff (q : Emb) (c : ℚ) (hc : -1 ≤ c)
    (l : List (String × Emb)) :
    maxDots q l > c ↔ ∃ pe ∈ l, dotp pe.2 q > c := by
  induction l with
  | nil =>
      simp only [maxDots, List.map_nil, List.foldr_nil]
      constructor
      · intro h; linarith
      · rintro ⟨pe, hpe, -⟩; simp at hpe
  | cons pe0 rest ih =>
      simp only [maxDots, List.map_cons, List.foldr_cons] at *
      rw [gt_iff_lt, lt_sup_iff]
      constructor
      · rintro (h | h)
        · exact ⟨pe0, by simp, h⟩
        · obtain ⟨pe, hmem, hgt⟩ := ih.mp h
          exact ⟨pe, by simp [hmem], hgt⟩
      · rintro ⟨pe, hmem, hgt⟩
        rcases List.mem_cons.mp hmem with rfl | hmem
        · exact Or.inl hgt
        · exact Or.inr (ih.mpr ⟨pe, hmem, hgt⟩)

theorem bestAfterInitial_gt_iff (q : Emb) (initial : List (String × Emb))
    (c : ℚ) (hc : -1 ≤ c) :
    (bestAfterInitial q initial).1 > c ↔
      ∃ pe ∈ initial, dotp pe.2 q > c := by
  rcases hi : argmaxSim q initial with _ | ⟨p, s⟩
  · rw [(argmaxSim_none_iff q initial).mp hi]
    simp only [bestAfterInitial, argmaxSim]
    constructor
    · intro h; simp at h; linarith
    · rintro ⟨pe, hpe, -⟩; simp at hpe
  · have hub := argmaxSim_ub q initial p s hi
    have hat := argmaxSim_attained q initial p s hi
    by_cases hgt : s > -1
    · simp only [bestAfterInitial, hi, hgt, if_true]
      constructor
      · intro h
        obtain ⟨pe, hmem, -, hdot⟩ := hat
        exact ⟨pe, hmem, by rw [hdot]; exact h⟩
      · rintro ⟨pe, hmem, hcc⟩
        exact lt_of_lt_of_le hcc (hub pe hmem)
    · simp only [bestAfterInitial, hi, hgt, if_false]
      constructor
      · intro h; simp at h; linarith
      · rintro ⟨pe, hmem, hcc⟩
        have h1 := hub pe hmem
        have h2 : s > -1 := by linarith
        exact absurd h2 hgt

theorem bestAfterInitial_some_of_gt (q : Emb) (initial : List (String × Emb))
    (h : (bestAfterInitial q initial).1 > -1) :
    ∃ p, (bestAfterInitial q initial).2 = some p := by
  rcases hi : argmaxSim q initial with _ | ⟨p, s⟩
  · simp only [bestAfterInitial, hi] at h
    simp at h
  · by_cases hgt : s > -1
    · exact ⟨p, by simp [bestAfterInitial, hi, hgt]⟩
    · simp only [bestAfterInitial, hi, hgt, if_false] at h
      simp at h

theorem bestAfterNew_gt_iff (q : Emb) (initial newFaces : List (String × Emb))
    (c : ℚ) (hc : -1 ≤ c) :
    (bestAfterNew q initial newFaces).1 > c ↔
      (∃ pe ∈ initial, dotp pe.2 q > c) ∨
      (∃ pe ∈ newFaces, dotp pe.2 q > c) := by
  rcases hn : argmaxSim q newFaces with _ | ⟨p, s⟩
  · rw [(argmaxSim_none_iff q newFaces).mp hn]
    simp only [bestAfterNew, argmaxSim]
    rw [bestAfterInitial_gt_iff q initial c hc]
    constructor
    · exact Or.inl
    · rintro (h | ⟨pe, hpe, -⟩)
      · exact h
      · simp at hpe
  · have hub := argmaxSim_ub q newFaces p s hn
    have hat := argmaxSim_attained q newFaces p s hn
    by_cases hcmp : s > (bestAfterInitial q initial).1
    · simp only [bestAfterNew, hn, hcmp, if_true]
      constructor
      · intro h
        obtain ⟨pe, hmem, -, hdot⟩ := hat
        exact Or.inr ⟨pe, hmem, by rw [hdot]; exact h⟩
      · rintro (⟨pe, hmem, hcc⟩ | ⟨pe, hmem, hcc⟩)
        · have h1 : (bestAfterInitial q initial).1 > c :=
            (bestAfterInitial_gt_iff q initial c hc).mpr ⟨pe, hmem, hcc⟩
          linarith
        · exact lt_of_lt_of_le hcc (hub pe hmem)
    · simp only [bestAfterNew, hn, hcmp, if_false]
      rw [bestAfterInitial_gt_iff q initial c hc]
      constructor
      · exact Or.inl
      · rintro (h | ⟨pe, hmem, hcc⟩)
        · exact h
        · have h1 := hub pe hmem
          have h2 : (bestAfterInitial q initial).1 > c := by
            have := not_lt.mp hcmp
            linarith
          exact (bestAfterInitial_gt_iff q initial c hc).mp h2

theorem bestAfterNew_some_of_gt (q : Emb)
    (initial newFaces : List (String × Emb))
    (h : (bestAfterNew q initial newFaces).1 > -1) :
    ∃ p, (bestAfterNew q initial newFaces).2 = some p := by
  rcases hn : argmaxSim q newFaces with _ | ⟨p, s⟩
  · simp only [bestAfterNew, hn] at h ⊢
    exact bestAfterInitial_some_of_gt q initial h
  · by_cases hcmp : s > (bestAfterInitial q initial).1
    · exact ⟨p, by simp [bestAfterNew, hn, hcmp]⟩
    · simp only [bestAfterNew, hn, hcmp, if_false] at h ⊢
      exact bestAfterInitial_some_of_gt q initial h

/-- C3 (amended): in the worker's in-process fast path a new embedding is
matched to an existing cluster iff its best cosine distance over all cached
exemplars (initial snapshot plus shared new-cluster list) is strictly below
0.55 — equivalently, iff the maximum similarity is strictly above the
threshold 0.45, which the code compares against the similarity itself, not
against the distance; otherwise no match is returned. -/
theorem find_matching_person_optimized_threshold
    (initial newFaces : List (String × Emb)) (q : Emb) :
    (∃ p, find_matching_person_optimized initial newFaces q = some p) ↔
    1 - max (maxDots q initial) (maxDots q newFaces) < 11/20 := by
  have hkey := bestAfterNew_gt_iff q initial newFaces (9/20) (by norm_num)
  have hiffM : max (maxDots q initial) (maxDots q newFaces) > 9/20 ↔
      (∃ pe ∈ initial, dotp pe.2 q > 9/20) ∨
      (∃ pe ∈ newFaces, dotp pe.2 q > 9/20) := by
    rw [gt_iff_lt, lt_max_iff]
    rw [← gt_iff_lt, ← gt_iff_lt]
    rw [maxDots_gt_iff q (9/20) (by norm_num) initial,
      maxDots_gt_iff q (9/20) (by norm_num) newFaces]
  constructor
  · rintro ⟨p, hp⟩
    unfold find_matching_person_optimized at hp
    by_cases hgt : (bestAfterNew q initial newFaces).1 > 9/20
    · have hM := hiffM.mpr (hkey.mp hgt)
      linarith
    · rw [if_neg hgt] at hp
      exact absurd hp (by simp)
  · intro h
    have hM : max (maxDots q initial) (maxDots q newFaces) > 9/20 := by
      linarith
    have hgt := hkey.mpr (hiffM.mp hM)
    obtain ⟨p, hp⟩ :=
      bestAfterNew_some_of_gt q initial newFaces (by linarith)
    refine ⟨p, ?_⟩
    unfold find_matching_person_optimized
    rw [if_pos hgt]
    exact hp

/-- 512-d unit-norm query used in the C3 counterexample. -/
def qCE : Emb := 1 :: List.replicate 511 0

/-- 512-d unit-norm exemplar whose similarity to `qCE` is 8/17 ≈ 0.47:
above the code's 0.45 similarity threshold but at cosine distance
9/17 ≈ 0.53, not strictly below the claimed tolerance 0.45. -/
def cCE : Emb := (8/17 : ℚ) :: (15/17 : ℚ) :: List.replicate 510 0

/-- C3 counterexample: with one cached exemplar at similarity 8/17, the
fast path returns a match although the cosine distance 1 − 8/17 = 9/17 is
not strictly below 0.45 — refuting the claim that a match is returned iff
the distance is strictly below 0.45 (similarity strictly above 0.55). -/
theorem find_matching_person_optimized_counterexample :
    qCE.length = 512 ∧ cCE.length = 512 ∧
    dotp qCE qCE = 1 ∧ dotp cCE cCE = 1 ∧
    find_matching_person_optimized [] [("p", cCE)] qCE = some "p" ∧
    ¬(1 - dotp cCE qCE < 9/20) := by
  have h511 : List.replicate 511 (0 : ℚ) = 0 :: List.replicate 510 0 := by
    rw [show (511 : Nat) = 510 + 1 from rfl, List.replicate_succ]
  have hcq : dotp cCE qCE = 8/17 := by
    norm_num [cCE, qCE, h511, dotp_replicate_zero]
  have hfind : find_matching_person_optimized [] [("p", cCE)] qCE =
      some "p" := by
    norm_num [find_matching_person_optimized, bestAfterNew, bestAfterInitial,
      argmaxSim, hcq]
  refine ⟨by norm_num [qCE], by norm_num [cCE], ?_, ?_, hfind, ?_⟩
  · norm_num [qCE, dotp_replicate_zero]
  · norm_num [cCE, dotp_replicate_zero]
  · rw [hcq]; norm_num

/-! ## Representative-face update (`process_image_task`, face loop)

For each accepted face the worker reads the person's persisted
`metadata.best_face_score` (`get_person_best_score_from_db`, defaulting to
0.0), and enters the update branch when `current_score > best_score` **or**
the on-disk representative thumbnail `person_<id>.jpg` does not exist.  The
branch crops and saves the thumbnail, optionally uploads it, and then calls
`update_person_best_score_in_db(db, person_id, current_score)`; any
exception inside the branch is swallowed.  The per-person state is the
persisted score plus thumbnail-file existence; the save/upload attempt may
succeed, fail before the local file is written, or fail after it.
-/

inductive SaveOutcome where
  | ok
  | failBeforeWrite
  | failAfterWrite
deriving DecidableEq, Repr

structure RepState where
  best_face_score : ℚ
  thumbExists : Bool
deriving DecidableEq, Repr

/-- One face's representative update (lines 247–267 of
`batch_processor.py`). -/
def update_representative (st : RepState) (current_score : ℚ)
    (save : SaveOutcome) : RepState :=
  if current_score > st.best_face_score ∨ st.thumbExists = false then
    match save with
    | .ok => ⟨current_score, true⟩
    | .failBeforeWrite => st
    | .failAfterWrite => ⟨st.best_face_score, true⟩
  else st

/-- C5 counterexample: with a persisted best score of 0.9 but no on-disk
representative thumbnail, a face of score 0.5 rewrites `best_face_score` to
0.5 — the score is rewritten although the new `det_score` is not strictly
greater, and the persisted value decreases. -/
theorem update_representative_counterexample :
    update_representative ⟨9/10, false⟩ (1/2) .ok = ⟨1/2, true⟩ ∧
    ((1/2 : ℚ) < 9/10) := by
  refine ⟨?_, by norm_num⟩
  norm_num [update_representative]

/-- C5 (amended): the score is rewritten when the new `det_score` is
strictly greater **or** the on-disk representative thumbnail is absent;
consequently, from any state in which the thumbnail exists,
`best_face_score` never decreases across any sequence of face additions. -/
theorem update_representative_monotone (st : RepState)
    (events : List (ℚ × SaveOutcome)) (h : st.thumbExists = true) :
    st.best_face_score ≤
      (events.foldl (fun s e => update_representative s e.1 e.2)
        st).best_face_score := by
  induction events generalizing st with
  | nil => simp
  | cons e rest ih =>
      simp only [List.foldl_cons]
      have hstep : st.best_face_score ≤
          (update_representative st e.1 e.2).best_face_score ∧
          (update_representative st e.1 e.2).thumbExists = true := by
        by_cases hgt : e.1 > st.best_face_score
        · cases hsv : e.2 <;> simp [update_representative, hgt, h]
          linarith
        · simp [update_representative, hgt, h]
      calc st.best_face_score
          ≤ (update_representative st e.1 e.2).best_face_score := hstep.1
        _ ≤ _ := ih _ hstep.2

theorem update_representative_monotone_witness :
    (⟨1/2, true⟩ : RepState).best_face_score ≤
      ([((9 : ℚ)/10, SaveOutcome.ok)].foldl
        (fun s e => update_representative s e.1 e.2)
        ⟨1/2, true⟩).best_face_score :=
  update_representative_monotone ⟨1/2, true⟩ [(9/10, .ok)] rfl

/-! ## Per-image task (`process_image_task`)

The task body runs inside one `try` block: steps 1–6 (file read, decode,
detection, whole-image thumbnail, optional upload, EXIF) come first, then
the image document is inserted with `processed: True`, then the face loop
runs (skipping embeddings whose shape is not `(512,)`, inserting one face
document per accepted face), and finally the image document's `faces` list
is patched and the result triple returned.  The single `except` handler
(lines 306–310) prints the error and returns `None` — it performs no
database write, so the totality of the model function below is exactly the
"worker never raises" behaviour, and a failure leaves whatever documents
were already inserted.  `FailPoint` says where the exception (if any) was
raised: before the image insert, while handling face `k` of the accepted
list (the first `min k n` accepted faces already have documents), or at the
final patch.  Face documents are abstracted to a count, and the per-face
summary payloads to placeholder entries, since only their presence matters
here.
-/

inductive ProcState where
  | pending
  | processed
  | failed
deriving DecidableEq, Repr

structure ImageDoc where
  filename : String
  relative_path : String
  processed : ProcState
  faces : Option (List Nat)
deriving DecidableEq, Repr

structure TaskDb where
  images : List ImageDoc
  faceDocs : Nat
deriving DecidableEq, Repr

structure FaceDet where
  det_score : ℚ
  shape512 : Bool
deriving DecidableEq, Repr

/-- The faces the loop does not `continue` past
(`encoding.shape != (512,)`). -/
def acceptedFaces (dets : List FaceDet) : List FaceDet :=
  dets.filter (fun d => d.shape512)

inductive FailPoint where
  | beforeInsert
  | duringFaces (k : Nat)
  | atPatch
deriving DecidableEq, Repr

def insertImageDoc (db : TaskDb) (doc : ImageDoc) : TaskDb :=
  { db with images := db.images ++ [doc] }

/-- `process_image_task(filename, file_path, folder_id, relative_path, …)`
on the catalogue state, with `uuidName` the freshly drawn
`f"{uuid.uuid4()}{ext}"` unique filename. -/
def process_image_task (uuidName rel : String) (dets : List FaceDet)
    (failAt : Option FailPoint) (db : TaskDb) : TaskDb × Option TaskResult :=
  match failAt with
  | some .beforeInsert => (db, none)
  | some (.duringFaces k) =>
      let db1 := insertImageDoc db ⟨uuidName, rel, .processed, none⟩
      ({ db1 with
          faceDocs := db1.faceDocs + min k (acceptedFaces dets).length },
        none)
  | some .atPatch =>
      let db1 := insertImageDoc db ⟨uuidName, rel, .processed, none⟩
      ({ db1 with faceDocs := db1.faceDocs + (acceptedFaces dets).length },
        none)
  | none =>
      let db1 := insertImageDoc db ⟨uuidName, rel, .processed, none⟩
      let n := (acceptedFaces dets).length
      let db2 := { db1 with faceDocs := db1.faceDocs + n }
      let db3 := { db2 with
        images := db2.images.map (fun d =>
          if d.filename = uuidName then { d with faces := some (List.range n) }
          else d) }
      (db3, some ⟨rel, "thumb_" ++ uuidName,
        (acceptedFaces dets).map (fun _ => ⟨"f", "p", none⟩)⟩)

/-- C6 counterexample: an exception while processing the first face of an
image leaves the image document inserted with state `processed` — not
`failed` — and returns a failure result; the claim that the handler marks
the document `failed` is false. -/
theorem process_image_task_counterexample :
    (process_image_task "u1" "a.jpg" [⟨9/10, true⟩]
      (some (.duringFaces 0)) ⟨[], 0⟩).2 = none ∧
    (process_image_task "u1" "a.jpg" [⟨9/10, true⟩]
      (some (.duringFaces 0)) ⟨[], 0⟩).1.images =
      [⟨"u1", "a.jpg", .processed, none⟩] ∧
    ProcState.processed ≠ ProcState.failed := by
  refine ⟨rfl, rfl, by decide⟩

/-- C6 (amended): any exception raised inside the task's `try` block causes
a failure result (`None`) to be returned to the scheduler — the worker never
propagates the exception — but the handler performs no state update: no
image document is ever marked `failed` (the document keeps the `processed`
state written at insertion, or does not exist at all). -/
theorem process_image_task_no_failed_marking (uuidName rel : String)
    (dets : List FaceDet) (fp : FailPoint) (db : TaskDb)
    (h : ∀ doc ∈ db.images, doc.processed ≠ ProcState.failed) :
    (process_image_task uuidName rel dets (some fp) db).2 = none ∧
    ∀ doc ∈ (process_image_task uuidName rel dets (some fp) db).1.images,
      doc.processed ≠ ProcState.failed := by
  cases fp with
  | beforeInsert => exact ⟨rfl, h⟩
  | duringFaces k =>
      refine ⟨rfl, ?_⟩
      intro doc hdoc
      simp only [process_image_task, insertImageDoc, List.mem_append,
        List.mem_singleton] at hdoc
      rcases hdoc with hmem | rfl
      · exact h doc hmem
      · simp
  | atPatch =>
      refine ⟨rfl, ?_⟩
      intro doc hdoc
      simp only [process_image_task, insertImageDoc, List.mem_append,
        List.mem_singleton] at hdoc
      rcases hdoc with hmem | rfl
      · exact h doc hmem
      · simp

theorem process_image_task_no_failed_marking_witness :
    (process_image_task "u" "r" [] (some .atPatch) ⟨[], 0⟩).2 = none ∧
    ∀ doc ∈ (process_image_task "u" "r" [] (some .atPatch) ⟨[], 0⟩).1.images,
      doc.processed ≠ ProcState.failed :=
  process_image_task_no_failed_marking "u" "r" [] .atPatch ⟨[], 0⟩ (by simp)

theorem map_fixed {α : Type} (f : α → α) (l : List α)
    (h : ∀ x ∈ l, f x = x) : l.map f = l := by
  induction l with
  | nil => rfl
  | cons a l ih =>
      simp [h a (by simp), ih (fun x hx => h x (by simp [hx]))]

/-- C10: the per-image task is not atomic on failure.  The image document is
inserted with `processed` already set before the face loop runs; the
exception handler performs no rollback, so a task failing at face `k`
leaves the image document and the `min k n` already-inserted face documents
in the catalogue while the scheduler writes no progress record for the
path; on the next run the same relative path is a walk candidate again and
reprocessing inserts a second image document under a fresh unique
filename. -/
theorem process_image_task_not_atomic (db0 : TaskDb) (st : SchedState)
    (log : List String) (f : FileEntry) (uuid1 uuid2 rel : String)
    (dets : List FaceDet) (k : Nat)
    (hne : uuid1 ≠ uuid2)
    (hfresh : ∀ doc ∈ db0.images, doc.filename ≠ uuid2)
    (hkey : log_key f = rel) (hlog : rel ∉ log)
    (hdot : strStartsWith f.filename "." = false)
    (hmime : ∃ m, f.mime = some m ∧ strStartsWith m "image/" = true) :
    (process_image_task uuid1 rel dets (some (.duringFaces k)) db0).2 =
      none ∧
    (process_image_task uuid1 rel dets (some (.duringFaces k)) db0).1.images =
      db0.images ++ [⟨uuid1, rel, .processed, none⟩] ∧
    (process_image_task uuid1 rel dets
        (some (.duringFaces k)) db0).1.faceDocs =
      db0.faceDocs + min k (acceptedFaces dets).length ∧
    (handle_result st rel none).log = st.log ∧
    f ∈ scan_candidates log [f] ∧
    (process_image_task uuid2 rel dets none
        ((process_image_task uuid1 rel dets
          (some (.duringFaces k)) db0).1)).1.images =
      db0.images ++ [⟨uuid1, rel, .processed, none⟩] ++
        [⟨uuid2, rel, .processed,
          some (List.range (acceptedFaces dets).length)⟩] := by
  refine ⟨rfl, by simp [process_image_task, insertImageDoc], rfl, rfl,
    ?_, ?_⟩
  · obtain ⟨m, hm, him⟩ := hmime
    rw [scan_candidates, List.mem_filter]
    refine ⟨by simp, ?_⟩
    rw [is_candidate, hkey, if_neg hlog, if_neg (by rw [hdot]; simp), hm]
    exact him
  · simp only [process_image_task, insertImageDoc]
    have h1 : ∀ doc ∈ db0.images ++
        [(⟨uuid1, rel, ProcState.processed, none⟩ : ImageDoc)],
        (if doc.filename = uuid2 then
          { doc with
            faces := some (List.range (acceptedFaces dets).length) }
        else doc) = doc := by
      intro doc hdoc
      rcases List.mem_append.mp hdoc with hmem | hmem
      · rw [if_neg (hfresh doc hmem)]
      · simp only [List.mem_singleton] at hmem
        subst hmem
        simp [hne]
    rw [List.map_append, map_fixed _ _ h1]
    simp

theorem process_image_task_not_atomic_witness :
    (process_image_task "u1" "a.jpg" [⟨9/10, true⟩]
      (some (.duringFaces 0)) ⟨[], 0⟩).2 = none ∧
    (process_image_task "u2" "a.jpg" [⟨9/10, true⟩] none
        ((process_image_task "u1" "a.jpg" [⟨9/10, true⟩]
          (some (.duringFaces 0)) ⟨[], 0⟩).1)).1.images =
      [⟨"u1", "a.jpg", .processed, none⟩,
        ⟨"u2", "a.jpg", .processed, some [0]⟩] := by
  have h := process_image_task_not_atomic ⟨[], 0⟩ ⟨[], 0⟩ []
    ⟨".", "a.jpg", some "image/jpeg"⟩ "u1" "u2" "a.jpg" [⟨9/10, true⟩] 0
    (by decide) (by simp) (by decide) (by simp) (by decide)
    ⟨"image/jpeg", rfl, by decide⟩
  exact ⟨h.1, by rw [h.2.2.2.2.2]; rfl⟩

/-! ## Person merging

`merge_duplicate_persons` in `processor/fixup.py` compares representative
embeddings pairwise and merges matching pairs, with a naming rule; the
direct `merge_persons` operation in
`processor/app/services/clustering_service.py` moves every face from the
source person to the target person and deletes the source person, with no
name check at all (its representative-face refresh is elided here).  A
person's stored name is `None` or a string; Python truthiness makes both
`None` and the empty string count as unnamed.
-/

structure PersonRec where
  pid : String
  name : Option String
deriving DecidableEq, Repr

structure MergeDb where
  persons : List PersonRec
  faces : List (String × String)
deriving DecidableEq, Repr

/-- Python truthiness of a stored person name. -/
def isNamed : Option String → Bool
  | none => false
  | some s => !(s = "")

def nameOf (db : MergeDb) (pid : String) : Option String :=
  match db.persons.find? (fun p => p.pid = pid) with
  | none => none
  | some p => p.name

inductive PairAction where
  | skipped
  | merged (finalTarget finalSource : String)
deriving DecidableEq, Repr

/-- The per-pair decision of `merge_duplicate_persons` (fixup.py lines
186–203): a pair of truthy, different names is skipped; an unnamed target
with a named source reverses the merge direction; otherwise the merge goes
target ← source. -/
def merge_pair_decision (targetId sourceId : String)
    (targetName sourceName : Option String) : PairAction :=
  if isNamed targetName = true ∧ isNamed sourceName = true ∧
      targetName ≠ sourceName then .skipped
  else if isNamed targetName = false ∧ isNamed sourceName = true then
    .merged sourceId targetId
  else .merged targetId sourceId

/-- The merge body shared by both operations: move all faces of
`finalSource` to `finalTarget`, delete the `finalSource` person document
(thumbnail-path rewriting and file deletion are elided). -/
def apply_merge (db : MergeDb) (finalTarget finalSource : String) :
    MergeDb :=
  { persons := db.persons.filter (fun p => p.pid ≠ finalSource),
    faces := db.faces.map (fun fp =>
      if fp.2 = finalSource then (fp.1, finalTarget) else fp) }

/-- One pair step of the duplicate-person sweep. -/
def merge_pair (db : MergeDb) (targetId sourceId : String) : MergeDb :=
  match merge_pair_decision targetId sourceId (nameOf db targetId)
      (nameOf db sourceId) with
  | .skipped => db
  | .merged ft fs => apply_merge db ft fs

/-- `merge_persons(db, source_id, target_id)` from
`processor/app/services/clustering_service.py`: refuse only when either id
is missing or they are equal; otherwise move the faces and delete the
source, never consulting names. -/
def merge_persons (db : MergeDb) (sourceId targetId : String) :
    MergeDb × Bool :=
  if (db.persons.find? (fun p => p.pid = sourceId)).isNone then (db, false)
  else if (db.persons.find? (fun p => p.pid = targetId)).isNone then
    (db, false)
  else if sourceId = targetId then (db, false)
  else (apply_merge db targetId sourceId, true)

/-- Two differently named persons, used in the C9 counterexample. -/
def mergeDbCE : MergeDb :=
  ⟨[⟨"A", some "Alice"⟩, ⟨"B", some "Bob"⟩], [("f1", "A")]⟩

/-- C9 counterexample: `merge_persons` merges two differently named persons
— the named source "Alice" is deleted and her face is moved — instead of
refusing the merge and leaving both persons untouched; the naming rule is
not applied by this operation. -/
theorem merge_persons_counterexample :
    isNamed (nameOf mergeDbCE "A") = true ∧
    isNamed (nameOf mergeDbCE "B") = true ∧
    nameOf mergeDbCE "A" ≠ nameOf mergeDbCE "B" ∧
    merge_persons mergeDbCE "A" "B" =
      (⟨[⟨"B", some "Bob"⟩], [("f1", "B")]⟩, true) := by decide

/-- C9 (amended): the naming rule holds for the duplicate-person sweep
(`merge_duplicate_persons`): when exactly one of the pair is named the
faces are moved into the named person and the unnamed record is deleted,
reversing the direction when the named person is the source; a pair of
differently named persons is skipped with no modification.  The direct
`merge_persons` operation applies no such rule (see the counterexample). -/
theorem merge_pair_naming_rule (db : MergeDb) (t s : String) :
    (isNamed (nameOf db t) = true → isNamed (nameOf db s) = false →
      merge_pair db t s = apply_merge db t s) ∧
    (isNamed (nameOf db t) = false → isNamed (nameOf db s) = true →
      merge_pair db t s = apply_merge db s t) ∧
    (isNamed (nameOf db t) = true → isNamed (nameOf db s) = true →
      nameOf db t ≠ nameOf db s → merge_pair db t s = db) ∧
    (∀ ft fs : String,
      (apply_merge db ft fs).persons =
        db.persons.filter (fun p => p.pid ≠ fs) ∧
      (apply_merge db ft fs).faces =
        db.faces.map (fun fp => if fp.2 = fs then (fp.1, ft) else fp)) := by
  refine ⟨?_, ?_, ?_, fun ft fs => ⟨rfl, rfl⟩⟩
  · intro ht hs
    rw [merge_pair, merge_pair_decision, if_neg (by simp [hs]),
      if_neg (by simp [ht])]
  · intro ht hs
    rw [merge_pair, merge_pair_decision, if_neg (by simp [ht]),
      if_pos ⟨ht, hs⟩]
  · intro ht hs hne
    rw [merge_pair, merge_pair_decision, if_pos ⟨ht, hs, hne⟩]

/-- One named and one unnamed person, used in the C9 witness. -/
def mergeDbW : MergeDb :=
  ⟨[⟨"A", some "Alice"⟩, ⟨"B", none⟩], [("f1", "B")]⟩

theorem merge_pair_naming_rule_witness :
    merge_pair mergeDbW "B" "A" = apply_merge mergeDbW "A" "B" ∧
    (apply_merge mergeDbW "A" "B").persons = [⟨"A", some "Alice"⟩] ∧
    (apply_merge mergeDbW "A" "B").faces = [("f1", "A")] :=
  ⟨(merge_pair_naming_rule mergeDbW "B" "A").2.1 (by decide) (by decide),
    by decide, by decide⟩

/-! ## Offline similarity matcher (`_find_matching_person`)

`clustering_service.cluster_faces` picks the tolerance by query
dimensionality (`settings.insightface_tolerance` = 0.4 for 512-d,
`settings.face_recognition_tolerance` = 0.6 otherwise) and calls
`_find_matching_person`, which walks the candidate clusters in order,
skipping empty clusters and clusters whose first exemplar's dimensionality
differs from the query's, computes the minimum per-exemplar distance
(cosine distance `1 − dot` for 512-d queries, Euclidean norm of the
difference otherwise) and keeps the strictly smallest cluster distance that
is also strictly below tolerance.

The Euclidean branch of the source compares square roots; since every
comparison in one call is between two Euclidean distances or against the
fixed tolerance, the embedding carries the *squared* distance and squares
the tolerance — `euclid_lt_tol_iff` and `euclid_lt_euclid_iff` below prove
this encoding equivalent to the source's comparisons on true Euclidean
distances.
-/

/-- `Settings.face_recognition_tolerance` (config.py). -/
def face_recognition_tolerance : ℚ := 3/5

/-- `Settings.insightface_tolerance` (config.py). -/
def insightface_tolerance : ℚ := 2/5

/-- Tolerance dispatch in `cluster_faces`. -/
def toleranceFor (q : Emb) : ℚ :=
  if q.length = 512 then insightface_tolerance else face_recognition_tolerance

/-- Squared Euclidean distance, elementwise. -/
def sqDiff : Emb → Emb → ℚ
  | a :: as, b :: bs => (a - b) ^ 2 + sqDiff as bs
  | _, _ => 0

/-- Per-exemplar comparison value: cosine distance for 512-d queries,
squared Euclidean distance otherwise. -/
def rawDist (q e : Emb) : ℚ :=
  if q.length = 512 then 1 - dotp q e else sqDiff q e

/-- The tolerance in the same scale as `rawDist`. -/
def rawTol (q : Emb) (tol : ℚ) : ℚ :=
  if q.length = 512 then tol else tol ^ 2

/-- `min(distances)` over a cluster's (nonempty) exemplar list. -/
def minDistOver (q e0 : Emb) (es : List Emb) : ℚ :=
  (es.map (rawDist q)).foldr min (rawDist q e0)

/-- `min_distance < best_distance`, where no best yet means infinity. -/
def beats (best : Option (String × ℚ)) (m : ℚ) : Bool :=
  match best with
  | none => true
  | some b => m < b.2

/-- The candidate loop of `_find_matching_person`: skip empty clusters and
clusters whose first exemplar's length differs from the query's; accept a
cluster when its minimum exemplar distance is strictly below tolerance and
strictly below the best so far. -/
def findLoop (q : Emb) (tol : ℚ) :
    List (String × List Emb) → Option (String × ℚ) → Option (String × ℚ)
  | [], best => best
  | (pid, encs) :: rest, best =>
      match encs with
      | [] => findLoop q tol rest best
      | e0 :: es =>
          if e0.length = q.length then
            if minDistOver q e0 es < rawTol q tol ∧
                beats best (minDistOver q e0 es) = true then
              findLoop q tol rest (some (pid, minDistOver q e0 es))
            else findLoop q tol rest best
          else findLoop q tol rest best

/-- `_find_matching_person(face_encoding, person_encodings, tolerance)`. -/
def find_matching_person (q : Emb) (cands : List (String × List Emb))
    (tol : ℚ) : Option (String × ℚ) :=
  findLoop q tol cands none

/-- Written from the spec's words: the clusters that participate, i.e.
those that are nonempty and of the query's dimensionality, each with its
nearest-neighbour-linkage cluster distance. -/
def validCandidates (q : Emb) (cands : List (String × List Emb)) :
    List (String × ℚ) :=
  cands.filterMap (fun pe =>
    match pe.2 with
    | [] => none
    | e0 :: es =>
        if e0.length = q.length then some (pe.1, minDistOver q e0 es)
        else none)

/-- Written from the spec's words: the first-encountered candidate
attaining the smallest cluster distance, returned only when that distance
is strictly below tolerance; `none` when no candidate is below
tolerance. -/
def selectFirstMinBelow (tolA : ℚ) :
    List (String × ℚ) → Option (String × ℚ)
  | [] => none
  | v :: vs =>
      match selectFirstMinBelow tolA vs with
      | none => if v.2 < tolA then some v else none
      | some w => if v.2 ≤ w.2 ∧ v.2 < tolA then some v else some w

/-- Accumulator form of the loop over the valid-candidate list. -/
def loopV (tolA : ℚ) :
    List (String × ℚ) → Option (String × ℚ) → Option (String × ℚ)
  | [], best => best
  | v :: vs, best =>
      if v.2 < tolA ∧ beats best v.2 = true then loopV tolA vs (some v)
      else loopV tolA vs best

/-- Combination of an established best with the outcome on the remaining
list: the earlier best survives ties. -/
def mergeBest (w : Option (String × ℚ)) (p : String) (v : ℚ) :
    Option (String × ℚ) :=
  match w with
  | none => some (p, v)
  | some w => if w.2 < v then some w else some (p, v)

/-! ### Matcher lemmas -/

theorem findLoop_eq_loopV (q : Emb) (tol : ℚ)
    (cands : List (String × List Emb)) (best : Option (String × ℚ)) :
    findLoop q tol cands best =
      loopV (rawTol q tol) (validCandidates q cands) best := by
  induction cands generalizing best with
  | nil => rfl
  | cons pe rest ih =>
      obtain ⟨pid, encs⟩ := pe
      cases encs with
      | nil => simp [findLoop, validCandidates, List.filterMap_cons, ih]
      | cons e0 es =>
          by_cases hdim : e0.length = q.length
          · have hR : validCandidates q ((pid, e0 :: es) :: rest) =
                (pid, minDistOver q e0 es) :: validCandidates q rest := by
              simp [validCandidates, List.filterMap_cons, hdim]
            by_cases hcond : minDistOver q e0 es < rawTol q tol ∧
                beats best (minDistOver q e0 es) = true
            · have hL : findLoop q tol ((pid, e0 :: es) :: rest) best =
                  findLoop q tol rest (some (pid, minDistOver q e0 es)) := by
                simp only [findLoop, hdim, if_true]
                rw [if_pos hcond]
              rw [hL, hR, loopV, if_pos hcond, ih]
            · have hL : findLoop q tol ((pid, e0 :: es) :: rest) best =
                  findLoop q tol rest best := by
                simp only [findLoop, hdim, if_true]
                rw [if_neg hcond]
              rw [hL, hR, loopV, if_neg hcond, ih]
          · have hR : validCandidates q ((pid, e0 :: es) :: rest) =
                validCandidates q rest := by
              simp [validCandidates, List.filterMap_cons, hdim]
            have hL : findLoop q tol ((pid, e0 :: es) :: rest) best =
                findLoop q tol rest best := by
              simp only [findLoop]
              rw [if_neg hdim]
            rw [hL, hR, ih]

theorem loopV_some_eq (tolA : ℚ) (l : List (String × ℚ)) :
    ∀ (p : String) (v : ℚ), v < tolA →
    loopV tolA l (some (p, v)) =
      mergeBest (selectFirstMinBelow tolA l) p v := by
  induction l with
  | nil => intro p v hv; rfl
  | cons v1 vs ih =>
      obtain ⟨p1, d1⟩ := v1
      intro p v hv
      by_cases hcond : d1 < tolA ∧ d1 < v
      · have hL : loopV tolA ((p1, d1) :: vs) (some (p, v)) =
            loopV tolA vs (some (p1, d1)) := by
          simp only [loopV]
          rw [if_pos ⟨hcond.1, by simp [beats, hcond.2]⟩]
        rw [hL, ih p1 d1 hcond.1]
        rcases hs : selectFirstMinBelow tolA vs with _ | w
        · have hsc : selectFirstMinBelow tolA ((p1, d1) :: vs) =
              some (p1, d1) := by
            simp [selectFirstMinBelow, hs, hcond.1]
          rw [hsc]
          simp [mergeBest, hcond.2]
        · by_cases hle : d1 ≤ w.2
          · have hsc : selectFirstMinBelow tolA ((p1, d1) :: vs) =
                some (p1, d1) := by
              simp [selectFirstMinBelow, hs, hle, hcond.1]
            rw [hsc]
            simp [mergeBest, not_lt.mpr hle, hcond.2]
          · have hw : w.2 < d1 := lt_of_not_le hle
            have hsc : selectFirstMinBelow tolA ((p1, d1) :: vs) =
                some w := by
              simp [selectFirstMinBelow, hs, hle]
            rw [hsc]
            simp [mergeBest, hw, lt_trans hw hcond.2]
      · have hL : loopV tolA ((p1, d1) :: vs) (some (p, v)) =
            loopV tolA vs (some (p, v)) := by
          simp only [loopV]
          rw [if_neg (by simp only [beats, decide_eq_true_eq]; tauto)]
        rw [hL, ih p v hv]
        rcases hs : selectFirstMinBelow tolA vs with _ | w
        · by_cases h1 : d1 < tolA
          · have h2 : ¬ d1 < v := fun hcontra => hcond ⟨h1, hcontra⟩
            have hsc : selectFirstMinBelow tolA ((p1, d1) :: vs) =
                some (p1, d1) := by
              simp [selectFirstMinBelow, hs, h1]
            rw [hsc]
            simp [mergeBest, h2]
          · have hsc : selectFirstMinBelow tolA ((p1, d1) :: vs) = none := by
              simp [selectFirstMinBelow, hs, h1]
            rw [hsc]
        · by_cases h1 : d1 ≤ w.2 ∧ d1 < tolA
          · have h2 : ¬ d1 < v := fun hcontra => hcond ⟨h1.2, hcontra⟩
            have hsc : selectFirstMinBelow tolA ((p1, d1) :: vs) =
                some (p1, d1) := by
              simp [selectFirstMinBelow, hs, h1.1, h1.2]
            rw [hsc]
            have h3 : ¬ w.2 < v := by
              have hvd := not_lt.mp h2
              intro hcontra
              linarith [h1.1]
            simp [mergeBest, h2, h3]
          · have hsc : selectFirstMinBelow tolA ((p1, d1) :: vs) =
                some w := by
              simp [selectFirstMinBelow, hs, h1]
            rw [hsc]

theorem loopV_none_eq (tolA : ℚ) (l : List (String × ℚ)) :
    loopV tolA l none = selectFirstMinBelow tolA l := by
  induction l with
  | nil => rfl
  | cons v1 vs ih =>
      obtain ⟨p1, d1⟩ := v1
      by_cases h1 : d1 < tolA
      · have hL : loopV tolA ((p1, d1) :: vs) none =
            loopV tolA vs (some (p1, d1)) := by
          simp only [loopV]
          rw [if_pos ⟨h1, rfl⟩]
        rw [hL, loopV_some_eq tolA vs p1 d1 h1]
        rcases hs : selectFirstMinBelow tolA vs with _ | w
        · simp [selectFirstMinBelow, hs, mergeBest, h1]
        · by_cases hle : d1 ≤ w.2
          · have hsc : selectFirstMinBelow tolA ((p1, d1) :: vs) =
                some (p1, d1) := by
              simp [selectFirstMinBelow, hs, hle, h1]
            rw [hsc]
            simp [mergeBest, not_lt.mpr hle]
          · have hw : w.2 < d1 := lt_of_not_le hle
            have hsc : selectFirstMinBelow tolA ((p1, d1) :: vs) =
                some w := by
              simp [selectFirstMinBelow, hs, hle]
            rw [hsc]
            simp [mergeBest, hw]
      · have hL : loopV tolA ((p1, d1) :: vs) none =
            loopV tolA vs none := by
          simp only [loopV]
          rw [if_neg (by tauto)]
        rw [hL, ih]
        rcases hs : selectFirstMinBelow tolA vs with _ | w
        · simp [selectFirstMinBelow, hs, h1]
        · simp only [selectFirstMinBelow, hs]
          rw [if_neg (fun hcontra => h1 hcontra.2)]

theorem selectFirstMinBelow_none_iff (tolA : ℚ) (l : List (String × ℚ)) :
    selectFirstMinBelow tolA l = none ↔ ∀ v ∈ l, ¬ v.2 < tolA := by
  induction l with
  | nil => simp [selectFirstMinBelow]
  | cons v1 vs ih =>
      rcases hs : selectFirstMinBelow tolA vs with _ | w
      · by_cases h1 : v1.2 < tolA
        · simp only [selectFirstMinBelow, hs, if_pos h1]
          simp only [List.mem_cons]
          constructor
          · intro hcontra; exact absurd hcontra (by simp)
          · intro hall; exact absurd h1 (hall v1 (Or.inl rfl))
        · simp only [selectFirstMinBelow, hs, if_neg h1]
          simp only [List.mem_cons, true_iff]
          intro v hv
          rcases hv with rfl | hv
          · exact h1
          · exact (ih.mp hs) v hv
      · simp only [selectFirstMinBelow, hs]
        constructor
        · intro hcontra
          split at hcontra <;> simp at hcontra
        · intro hall
          exfalso
          have hnone : selectFirstMinBelow tolA vs = none :=
            ih.mpr (fun v hv => hall v (List.mem_cons_of_mem _ hv))
          rw [hnone] at hs
          exact Option.noConfusion hs

theorem sqDiff_nonneg (q e : Emb) : 0 ≤ sqDiff q e := by
  induction q generalizing e with
  | nil => cases e <;> simp [sqDiff]
  | cons a as ih =>
      cases e with
      | nil => simp [sqDiff]
      | cons b bs =>
          have h1 := ih bs
          have h2 := sq_nonneg (a - b)
          simp only [sqDiff]
          linarith

theorem euclid_lt_tol_iff (a c : ℚ) (hc : 0 < c) :
    Real.sqrt (a : ℝ) < (c : ℝ) ↔ a < c ^ 2 := by
  rw [Real.sqrt_lt' (by exact_mod_cast hc)]
  constructor <;> intro h <;> exact_mod_cast h

theorem euclid_lt_euclid_iff (a b : ℚ) (ha : 0 ≤ a) :
    Real.sqrt (a : ℝ) < Real.sqrt (b : ℝ) ↔ a < b := by
  rw [Real.sqrt_lt_sqrt_iff (by exact_mod_cast ha)]
  constructor <;> intro h <;> exact_mod_cast h

set_option linter.unusedVariables false in
/-- C4: the similarity kernel returns the first-encountered candidate
cluster whose minimum per-exemplar distance is smallest and strictly below
tolerance, skipping silently the candidates whose exemplar dimensionality
differs from the query's (each cluster's exemplars share one
dimensionality), and returns no match iff no candidate is below tolerance.
For 512-d queries the distance is `1 − dot` with tolerance 0.4; otherwise
the distance is Euclidean with tolerance 0.6, which the embedding carries
in squared form: the last two conjuncts prove the squared comparisons
equivalent to the source's comparisons of true Euclidean distances. -/
theorem find_matching_person_spec (q : Emb)
    (cands : List (String × List Emb))
    (hU : ∀ pe ∈ cands, ∀ e ∈ pe.2, ∀ e2 ∈ pe.2, e.length = e2.length) :
    find_matching_person q cands (toleranceFor q) =
      selectFirstMinBelow (rawTol q (toleranceFor q))
        (validCandidates q cands) ∧
    (find_matching_person q cands (toleranceFor q) = none ↔
      ∀ v ∈ validCandidates q cands,
        ¬ v.2 < rawTol q (toleranceFor q)) ∧
    (q.length = 512 →
      rawTol q (toleranceFor q) = 2/5 ∧
      ∀ e : Emb, rawDist q e = 1 - dotp q e) ∧
    (q.length ≠ 512 →
      rawTol q (toleranceFor q) = (3/5 : ℚ) ^ 2 ∧
      (∀ e : Emb, rawDist q e = sqDiff q e ∧
        (Real.sqrt ((sqDiff q e : ℚ) : ℝ) < (((3 : ℚ)/5 : ℚ) : ℝ) ↔
          sqDiff q e < (3/5 : ℚ) ^ 2)) ∧
      (∀ e e2 : Emb,
        (Real.sqrt ((sqDiff q e : ℚ) : ℝ) <
            Real.sqrt ((sqDiff q e2 : ℚ) : ℝ) ↔
          sqDiff q e < sqDiff q e2))) := by
  refine ⟨?_, ?_, ?_, ?_⟩
  · rw [find_matching_person, findLoop_eq_loopV, loopV_none_eq]
  · rw [find_matching_person, findLoop_eq_loopV, loopV_none_eq]
    exact selectFirstMinBelow_none_iff _ _
  · intro h512
    exact ⟨by simp [rawTol, toleranceFor, h512, insightface_tolerance],
      fun e => by simp [rawDist, h512]⟩
  · intro hnot
    refine ⟨by simp [rawTol, toleranceFor, hnot, face_recognition_tolerance],
      fun e => ⟨by simp [rawDist, hnot], ?_⟩, fun e e2 => ?_⟩
    · exact euclid_lt_tol_iff (sqDiff q e) (3/5) (by norm_num)
    · exact euclid_lt_euclid_iff _ _ (sqDiff_nonneg q e)

theorem find_matching_person_spec_witness :
    (∀ pe ∈ ([("a", [[(0 : ℚ), 1/2]]), ("c", [[1, 2, 3]])] :
        List (String × List Emb)),
      ∀ e ∈ pe.2, ∀ e2 ∈ pe.2, e.length = e2.length) ∧
    find_matching_person [0, 0]
        [("a", [[(0 : ℚ), 1/2]]), ("c", [[1, 2, 3]])] (toleranceFor [0, 0]) =
      selectFirstMinBelow (rawTol [0, 0] (toleranceFor [0, 0]))
        (validCandidates [0, 0]
          [("a", [[(0 : ℚ), 1/2]]), ("c", [[1, 2, 3]])]) ∧
    find_matching_person [0, 0]
        [("a", [[(0 : ℚ), 1/2]]), ("c", [[1, 2, 3]])] (toleranceFor [0, 0]) =
      some ("a", 1/4) :=
  ⟨by decide,
    (find_matching_person_spec [0, 0]
      [("a", [[(0 : ℚ), 1/2]]), ("c", [[1, 2, 3]])] (by decide)).1,
    by norm_num [find_matching_person, findLoop, minDistOver, beats,
      rawTol, toleranceFor, face_recognition_tolerance, rawDist, sqDiff]⟩
